import Mathlib

/-!
Shallow embedding of the continuous-agent file watcher (`agent.py`).

The pending-change table of `ChangeTracker` is a Python dict mapping
path to last-seen timestamp; dicts preserve insertion order, so the table
is modelled as an association list `List (String × ℚ)` in which an update
of an existing key replaces the value in place and a new key is appended.
Wall-clock times (`time.time()` floats) are modelled as rationals.
-/

namespace AutoClaude

/-- The pending-change table of `ChangeTracker`: path to last-seen timestamp. -/
abbrev PendingTable := List (String × ℚ)

/-- The constant `DEBOUNCE_SECONDS = 2.0` from the configuration block. -/
def DEBOUNCE_SECONDS : ℚ := 2

/-- The keys of the table, in insertion order. -/
def keys (tbl : PendingTable) : List String := tbl.map Prod.fst

/-- Model of `ChangeTracker.add_change`: `self.pending_changes[path] = time.time()`.
Dict assignment overwrites the value of an existing key in place and
appends a fresh key at the end. -/
def add_change (tbl : PendingTable) (path : String) (now : ℚ) : PendingTable :=
  if path ∈ keys tbl then
    tbl.map (fun e => if e.1 = path then (path, now) else e)
  else
    tbl ++ [(path, now)]

/-- Model of `ChangeTracker.get_ready_changes`: collect every entry with
`now - timestamp >= DEBOUNCE_SECONDS`, pop exactly those entries from the
table, and return the popped paths (in table iteration order) together
with the table that remains. -/
def get_ready_changes (tbl : PendingTable) (now : ℚ) : List String × PendingTable :=
  ((tbl.filter (fun e => decide (now - e.2 ≥ DEBOUNCE_SECONDS))).map Prod.fst,
   tbl.filter (fun e => decide (¬ now - e.2 ≥ DEBOUNCE_SECONDS)))

/-- A sequence of `get_ready_changes` calls at the given times, threading the
table through; returns the list of drained batches and the final table. -/
def drain_seq (tbl : PendingTable) : List ℚ → List (List String) × PendingTable
  | [] => ([], tbl)
  | t :: ts =>
    let r := get_ready_changes tbl t
    let rest := drain_seq r.2 ts
    (r.1 :: rest.1, rest.2)

/-! ### Helper lemmas about the table -/

theorem mem_keys {tbl : PendingTable} {p : String} :
    p ∈ keys tbl ↔ ∃ e ∈ tbl, e.1 = p := by
  simp [keys, List.mem_map]

/-- Every entry of `add_change tbl p t0` whose key is `p` is `(p, t0)`. -/
theorem entry_of_add_change {tbl : PendingTable} {p : String} {t0 : ℚ} :
    ∀ e ∈ add_change tbl p t0, e.1 = p → e = (p, t0) := by
  intro e he hkey
  unfold add_change at he
  by_cases hmem : p ∈ keys tbl
  · rw [if_pos hmem] at he
    rcases List.mem_map.mp he with ⟨x, hx, hfx⟩
    by_cases hxp : x.1 = p
    · rw [if_pos hxp] at hfx
      exact hfx.symm
    · rw [if_neg hxp] at hfx
      exact absurd (hfx ▸ hkey) hxp
  · rw [if_neg hmem] at he
    rcases List.mem_append.mp he with h | h
    · exact absurd (mem_keys.mpr ⟨e, h, hkey⟩) hmem
    · simpa using h

/-- The pair `(p, t0)` is itself an entry of `add_change tbl p t0`. -/
theorem self_mem_add_change {tbl : PendingTable} {p : String} {t0 : ℚ} :
    (p, t0) ∈ add_change tbl p t0 := by
  unfold add_change
  by_cases hmem : p ∈ keys tbl
  · rw [if_pos hmem]
    rcases mem_keys.mp hmem with ⟨e, he, hkey⟩
    exact List.mem_map.mpr ⟨e, he, by rw [if_pos hkey]⟩
  · rw [if_neg hmem]
    exact List.mem_append.mpr (Or.inr (by simp))

/-- Applying `add_change` leaves the key list unchanged for a present key and appends
the new key otherwise. -/
theorem keys_add_change (tbl : PendingTable) (p : String) (t0 : ℚ) :
    keys (add_change tbl p t0) =
      if p ∈ keys tbl then keys tbl else keys tbl ++ [p] := by
  unfold add_change
  by_cases hmem : p ∈ keys tbl
  · rw [if_pos hmem, if_pos hmem]
    unfold keys
    rw [List.map_map]
    apply List.map_congr_left
    intro e _
    by_cases hxp : e.1 = p
    · simp [hxp]
    · simp [hxp]
  · rw [if_neg hmem, if_neg hmem]
    simp [keys]

/-- Unfolding equation of `add_change` for a key already in the table. -/
theorem add_change_of_mem {tbl : PendingTable} {p : String} (t0 : ℚ)
    (h : p ∈ keys tbl) :
    add_change tbl p t0 = tbl.map (fun e => if e.1 = p then (p, t0) else e) := by
  unfold add_change
  rw [if_pos h]

/-- Unfolding equation of `add_change` for a fresh key. -/
theorem add_change_of_not_mem {tbl : PendingTable} {p : String} (t0 : ℚ)
    (h : p ∉ keys tbl) :
    add_change tbl p t0 = tbl ++ [(p, t0)] := by
  unfold add_change
  rw [if_neg h]

theorem nodup_keys_add_change {tbl : PendingTable} {p : String} {t0 : ℚ}
    (h : (keys tbl).Nodup) : (keys (add_change tbl p t0)).Nodup := by
  rw [keys_add_change]
  by_cases hmem : p ∈ keys tbl
  · rwa [if_pos hmem]
  · rw [if_neg hmem]
    simp [List.nodup_append, h, hmem]

/-- A path absent from the table is absent from a drain's result and from
the table the drain leaves behind. -/
theorem drain_of_not_mem {tbl : PendingTable} {p : String} (t : ℚ)
    (h : p ∉ keys tbl) :
    p ∉ (get_ready_changes tbl t).1 ∧ p ∉ keys (get_ready_changes tbl t).2 := by
  constructor
  · intro hp
    rcases List.mem_map.mp hp with ⟨e, he, hkey⟩
    exact h (mem_keys.mpr ⟨e, (List.mem_filter.mp he).1, hkey⟩)
  · intro hp
    rcases mem_keys.mp hp with ⟨e, he, hkey⟩
    exact h (mem_keys.mpr ⟨e, (List.mem_filter.mp he).1, hkey⟩)

/-- A path absent from the table stays absent from every batch of a whole
sequence of subsequent drains. -/
theorem drain_seq_of_not_mem {p : String} :
    ∀ (times : List ℚ) (tbl : PendingTable), p ∉ keys tbl →
      ∀ out ∈ (drain_seq tbl times).1, p ∉ out := by
  intro times
  induction times with
  | nil => intro tbl _ out hout; simp [drain_seq] at hout
  | cons t ts ih =>
    intro tbl h out hout
    rcases drain_of_not_mem t h with ⟨h1, h2⟩
    simp only [drain_seq] at hout
    rcases List.mem_cons.mp hout with heq | hout
    · rw [heq]; exact h1
    · exact ih _ h2 out hout

/-! ### Claim theorems: the Debouncer -/

/-- C1. For a path recorded at time `T` with no later record of it, a drain
strictly before `T + DEBOUNCE_SECONDS` does not include the path; a drain at
or after `T + DEBOUNCE_SECONDS` includes it exactly once and removes it from
the table; and once absent from the table the path appears in no batch of any
subsequent sequence of drains until it is recorded again. -/
theorem debounce_timing (tbl : PendingTable) (p : String) (T : ℚ)
    (hnd : (keys tbl).Nodup) :
    (∀ now, now < T + DEBOUNCE_SECONDS →
      p ∉ (get_ready_changes (add_change tbl p T) now).1)
    ∧ (∀ now, T + DEBOUNCE_SECONDS ≤ now →
      ((get_ready_changes (add_change tbl p T) now).1.count p = 1
        ∧ p ∉ keys (get_ready_changes (add_change tbl p T) now).2))
    ∧ (∀ tbl2 : PendingTable, p ∉ keys tbl2 →
      ∀ times : List ℚ, ∀ out ∈ (drain_seq tbl2 times).1, p ∉ out) := by
  refine ⟨?_, ?_, ?_⟩
  · intro now hnow hp
    rcases List.mem_map.mp hp with ⟨e, he, hkey⟩
    rcases List.mem_filter.mp he with ⟨he1, he2⟩
    have heT : e = (p, T) := entry_of_add_change e he1 hkey
    rw [heT] at he2
    simp only [decide_eq_true_eq] at he2
    have : T + DEBOUNCE_SECONDS ≤ now := by linarith
    linarith
  · intro now hnow
    constructor
    · have hmem : p ∈ (get_ready_changes (add_change tbl p T) now).1 := by
        apply List.mem_map.mpr
        refine ⟨(p, T), List.mem_filter.mpr ⟨self_mem_add_change, ?_⟩, rfl⟩
        simp only [decide_eq_true_eq]
        linarith
      have hsub : ((get_ready_changes (add_change tbl p T) now).1).Sublist
          (keys (add_change tbl p T)) :=
        (List.filter_sublist _).map Prod.fst
      exact List.count_eq_one_of_mem
        ((nodup_keys_add_change hnd).sublist hsub) hmem
    · intro hp
      rcases mem_keys.mp hp with ⟨e, he, hkey⟩
      rcases List.mem_filter.mp he with ⟨he1, he2⟩
      have heT : e = (p, T) := entry_of_add_change e he1 hkey
      rw [heT] at he2
      simp only [decide_eq_true_eq] at he2
      exact he2 (by linarith)
  · intro tbl2 h2 times out hout
    exact drain_seq_of_not_mem times tbl2 h2 out hout

/-- Closed instance of `debounce_timing` at a concrete table, path and times. -/
theorem debounce_timing_witness :
    "a" ∉ (get_ready_changes (add_change [] "a" 0) 1).1
    ∧ (get_ready_changes (add_change [] "a" 0) 2).1.count "a" = 1 := by
  have h := debounce_timing [] "a" 0 (by simp [keys])
  refine ⟨h.1 1 ?_, (h.2.1 2 ?_).1⟩
  · norm_num [DEBOUNCE_SECONDS]
  · norm_num [DEBOUNCE_SECONDS]

/-- The concrete table of the end-to-end scenario: `"a"` recorded at `t = 0`,
then `"b"` recorded at `t = 0.1`. -/
theorem scenario_table :
    add_change (add_change [] "a" 0) "b" (1/10) = [("a", 0), ("b", 1/10)] := by
  rw [add_change_of_not_mem 0 (by simp [keys]),
    add_change_of_not_mem (1/10) (by simp [keys])]
  simp

/-- Counterexample to C3 as stated: `"b"`, recorded at `t = 0.1`, is already
included in the drain at `t = 2.1`, because `2.1 - 0.1 = 2.0` meets the
inclusive `now - timestamp >= DEBOUNCE_SECONDS` threshold; the drain there
returns both paths, not `{"a"}` alone. -/
theorem end_to_end_cex :
    "b" ∈ (get_ready_changes (add_change (add_change [] "a" 0) "b" (1/10)) (21/10)).1
    ∧ (get_ready_changes (add_change (add_change [] "a" 0) "b" (1/10)) (21/10)).1
      ≠ ["a"] := by
  rw [scenario_table]
  norm_num [get_ready_changes, DEBOUNCE_SECONDS]

/-- C3 amended. With `"a"` recorded at `t = 0` and `"b"` at `t = 0.1`: the
drain at `t = 1` returns the empty batch and changes nothing; the drain at
`t = 2.1` returns exactly `["a", "b"]` (the settle threshold is inclusive and
`2.1 - 0.1 = 2.0`) and empties the table; the subsequent drain at `t = 2.2`
returns the empty batch. -/
theorem end_to_end_scenario :
    get_ready_changes (add_change (add_change [] "a" 0) "b" (1/10)) 1 =
      ([], add_change (add_change [] "a" 0) "b" (1/10))
    ∧ (get_ready_changes (add_change (add_change [] "a" 0) "b" (1/10)) (21/10)).1
      = ["a", "b"]
    ∧ (get_ready_changes (add_change (add_change [] "a" 0) "b" (1/10)) (21/10)).2 = []
    ∧ get_ready_changes
        (get_ready_changes (add_change (add_change [] "a" 0) "b" (1/10)) (21/10)).2
        (22/10) = ([], []) := by
  rw [scenario_table]
  refine ⟨?_, ?_, ?_, ?_⟩ <;>
    norm_num [get_ready_changes, DEBOUNCE_SECONDS]

/-- C4. Last-writer-wins: recording the same path at `T1` and then at
`T2 > T1` leaves the table exactly as recording it once at `T2`; every entry
for the path carries timestamp `T2`, and (when the table's keys are distinct)
no second entry accumulates for the path. -/
theorem last_writer_wins (tbl : PendingTable) (p : String) (T1 T2 : ℚ)
    (h : T1 < T2) :
    add_change (add_change tbl p T1) p T2 = add_change tbl p T2
    ∧ (∀ e ∈ add_change (add_change tbl p T1) p T2, e.1 = p → e.2 = T2)
    ∧ ((keys tbl).Nodup →
      (keys (add_change (add_change tbl p T1) p T2)).count p = 1) := by
  have hmain : add_change (add_change tbl p T1) p T2 = add_change tbl p T2 := by
    by_cases hmem : p ∈ keys tbl
    · have hmem1 : p ∈ keys (add_change tbl p T1) := by
        rw [keys_add_change, if_pos hmem]; exact hmem
      rw [add_change_of_mem T2 hmem1, add_change_of_mem T1 hmem,
        add_change_of_mem T2 hmem, List.map_map]
      apply List.map_congr_left
      intro e _
      by_cases hep : e.1 = p
      · simp [hep]
      · simp [hep]
    · have hmem1 : p ∈ keys (add_change tbl p T1) := by
        rw [keys_add_change, if_neg hmem]; simp [keys]
      rw [add_change_of_mem T2 hmem1, add_change_of_not_mem T1 hmem,
        add_change_of_not_mem T2 hmem, List.map_append]
      have h2 : tbl.map (fun e => if e.1 = p then (p, T2) else e) = tbl :=
        calc tbl.map (fun e => if e.1 = p then (p, T2) else e)
            = tbl.map id := List.map_congr_left (fun e he => by
              have hep : e.1 ≠ p := fun hep => hmem (mem_keys.mpr ⟨e, he, hep⟩)
              simp [hep])
          _ = tbl := List.map_id tbl
      rw [h2]
      simp
  refine ⟨hmain, ?_, ?_⟩
  · intro e he hkey
    rw [hmain] at he
    have := entry_of_add_change e he hkey
    rw [this]
  · intro hnd
    rw [hmain, keys_add_change]
    by_cases hmem : p ∈ keys tbl
    · rw [if_pos hmem]
      exact List.count_eq_one_of_mem hnd hmem
    · rw [if_neg hmem]
      rw [List.count_append]
      have h0 : (keys tbl).count p = 0 := List.count_eq_zero.mpr hmem
      simp [h0]

/-- Closed instance of `last_writer_wins` at a concrete table, path and times. -/
theorem last_writer_wins_witness :
    add_change (add_change [("x", 5)] "a" 0) "a" 1 = add_change [("x", 5)] "a" 1 := by
  have h := last_writer_wins [("x", 5)] "a" 0 1 (by norm_num)
  exact h.1

/-- C5. Frame property of the drain: on a table with no entries, or all of
whose entries are unsettled, `get_ready_changes` returns the empty batch and
leaves the table exactly as it was; and in general every unsettled entry
(same path, same timestamp) survives the drain in the remaining table. -/
theorem drain_frame (tbl : PendingTable) (now : ℚ) :
    ((∀ e ∈ tbl, now - e.2 < DEBOUNCE_SECONDS) →
      get_ready_changes tbl now = ([], tbl))
    ∧ get_ready_changes [] now = ([], [])
    ∧ (∀ e ∈ tbl, now - e.2 < DEBOUNCE_SECONDS →
      e ∈ (get_ready_changes tbl now).2) := by
  refine ⟨?_, by simp [get_ready_changes], ?_⟩
  · intro hall
    unfold get_ready_changes
    have h1 : tbl.filter (fun e => decide (now - e.2 ≥ DEBOUNCE_SECONDS)) = [] := by
      rw [List.filter_eq_nil_iff]
      intro e he
      simp only [decide_eq_true_eq]
      exact not_le.mpr (hall e he)
    have h2 : tbl.filter (fun e => decide (¬ now - e.2 ≥ DEBOUNCE_SECONDS)) = tbl := by
      rw [List.filter_eq_self]
      intro e he
      simp only [decide_eq_true_eq]
      exact not_le.mpr (hall e he)
    rw [h1, h2]
    simp
  · intro e he hlt
    apply List.mem_filter.mpr
    refine ⟨he, ?_⟩
    simp only [decide_eq_true_eq]
    exact not_le.mpr hlt

/-! ### The EventIngestor: path filtering (`FileChangeHandler`)

Paths are POSIX strings; `Path(path).parts` is modelled by splitting on
`'/'`, dropping empty components, and prepending a root component for an
absolute path. `str.endswith` and the substring test of `in` are modelled
directly on the character lists. -/

/-- Prefix test on character lists, written out structurally. -/
def startsWithList : List Char → List Char → Bool
  | [], _ => true
  | _ :: _, [] => false
  | a :: as, b :: bs => a == b && startsWithList as bs

/-- Split a character list at every occurrence of `sep`. -/
def splitSeg (sep : Char) : List Char → List (List Char)
  | [] => [[]]
  | c :: cs =>
    if c = sep then [] :: splitSeg sep cs
    else
      match splitSeg sep cs with
      | [] => [[c]]
      | s :: ss => (c :: s) :: ss

/-- Model of `Path(path).parts` for a POSIX path: the non-empty slash-separated
components, preceded by `"/"` when the path is absolute. -/
def pathParts (path : String) : List String :=
  let comps := ((splitSeg '/' path.data).map (fun l => String.mk l)).filter
    (fun s => decide (s ≠ ""))
  match path.data with
  | [] => comps
  | c :: _ => if c = '/' then "/" :: comps else comps

/-- Model of `str.endswith(suffix)`. -/
def endsWithStr (s suff : String) : Bool :=
  startsWithList suff.data.reverse s.data.reverse

/-- The module-level `IGNORE_PATTERNS` set. -/
def IGNORE_PATTERNS : List String :=
  [".git", "__pycache__", "venv", ".venv", "node_modules", ".pyc", ".pyo"]

/-- Model of `FileChangeHandler._should_ignore`: some pattern is an exact path
component or a suffix of the whole path. -/
def should_ignore (path : String) : Bool :=
  IGNORE_PATTERNS.any
    (fun pattern => decide (pattern ∈ pathParts path) || endsWithStr path pattern)

/-- A watchdog filesystem event, as consumed by the handler callbacks. -/
structure FsEvent where
  src_path : String
  is_directory : Bool

/-- Model of `FileChangeHandler.on_modified`: directories and ignored paths are
dropped; otherwise `add_change` is dispatched for the path. The returned
table is the tracker state after the dispatched coroutine runs. -/
def handle_modified (event : FsEvent) (tbl : PendingTable) (now : ℚ) :
    PendingTable :=
  if event.is_directory || should_ignore event.src_path then tbl
  else add_change tbl event.src_path now

/-- Model of `FileChangeHandler.on_created`: same guard and dispatch as `on_modified`. -/
def handle_created (event : FsEvent) (tbl : PendingTable) (now : ℚ) :
    PendingTable :=
  if event.is_directory || should_ignore event.src_path then tbl
  else add_change tbl event.src_path now

/-- The list of `add_change` dispatches a single event causes. -/
def dispatched_records (event : FsEvent) : List String :=
  if event.is_directory || should_ignore event.src_path then []
  else [event.src_path]

theorem startsWithList_iff :
    ∀ sub t : List Char, startsWithList sub t = true ↔ ∃ r, t = sub ++ r := by
  intro sub
  induction sub with
  | nil => intro t; simp [startsWithList]
  | cons a as ih =>
    intro t
    cases t with
    | nil => simp [startsWithList]
    | cons b bs =>
      simp only [startsWithList, Bool.and_eq_true, beq_iff_eq, ih bs]
      constructor
      · rintro ⟨rfl, r, rfl⟩
        exact ⟨r, rfl⟩
      · rintro ⟨r, hr⟩
        rcases List.cons_eq_cons.mp hr with ⟨rfl, hbs⟩
        exact ⟨rfl, r, hbs⟩

theorem endsWithStr_iff (s suff : String) :
    endsWithStr s suff = true ↔ ∃ l, s.data = l ++ suff.data := by
  unfold endsWithStr
  rw [startsWithList_iff]
  constructor
  · rintro ⟨r, hr⟩
    refine ⟨r.reverse, ?_⟩
    have := congrArg List.reverse hr
    simpa using this
  · rintro ⟨l, hl⟩
    exact ⟨l.reverse, by simp [hl]⟩

/-! ### Claim theorems: the EventIngestor -/

/-- C2. A path is dropped by `_should_ignore` exactly when some path
component equals a configured pattern or the path's trailing characters
match a configured pattern; a path that merely contains a pattern as a
substring of a component (such as `mygitrepo.py` against `.git`) is not
ignored and is forwarded to `add_change` by the handler. -/
theorem ignore_rule (path : String) :
    (should_ignore path = true ↔
      ∃ pat ∈ IGNORE_PATTERNS,
        pat ∈ pathParts path ∨ ∃ l, path.data = l ++ pat.data)
    ∧ ((∀ pat ∈ IGNORE_PATTERNS,
        pat ∉ pathParts path ∧ ¬ ∃ l, path.data = l ++ pat.data) →
      should_ignore path = false)
    ∧ should_ignore "/repo/mygitrepo.py" = false
    ∧ should_ignore "/repo/.git/config" = true
    ∧ (∀ (tbl : PendingTable) (now : ℚ),
      handle_modified ⟨"/repo/mygitrepo.py", false⟩ tbl now
        = add_change tbl "/repo/mygitrepo.py" now) := by
  have hiff : should_ignore path = true ↔
      ∃ pat ∈ IGNORE_PATTERNS,
        pat ∈ pathParts path ∨ ∃ l, path.data = l ++ pat.data := by
    unfold should_ignore
    rw [List.any_eq_true]
    constructor
    · rintro ⟨pat, hpat, hcond⟩
      rcases Bool.or_eq_true_iff.mp hcond with h | h
      · exact ⟨pat, hpat, Or.inl (of_decide_eq_true h)⟩
      · exact ⟨pat, hpat, Or.inr ((endsWithStr_iff path pat).mp h)⟩
    · rintro ⟨pat, hpat, h | h⟩
      · exact ⟨pat, hpat, Bool.or_eq_true_iff.mpr (Or.inl (decide_eq_true h))⟩
      · exact ⟨pat, hpat,
          Bool.or_eq_true_iff.mpr (Or.inr ((endsWithStr_iff path pat).mpr h))⟩
  have hmygit : should_ignore "/repo/mygitrepo.py" = false := by decide
  refine ⟨hiff, ?_, hmygit, by decide, ?_⟩
  · intro hall
    cases h : should_ignore path with
    | false => rfl
    | true =>
      rcases hiff.mp h with ⟨pat, hpat, hor⟩
      rcases hall pat hpat with ⟨h1, h2⟩
      rcases hor with h3 | h3
      · exact absurd h3 h1
      · exact absurd h3 h2
  · intro tbl now
    unfold handle_modified
    rw [hmygit]
    simp

/-- C6. An event whose `is_directory` flag is set, or whose path matches the
ignore rule, is dropped by both handlers with no dispatch and no change to
the pending table; any other event dispatches exactly one `add_change` of
its path. -/
theorem event_filtering (event : FsEvent) (tbl : PendingTable) (now : ℚ) :
    ((event.is_directory = true ∨ should_ignore event.src_path = true) →
      handle_modified event tbl now = tbl
      ∧ handle_created event tbl now = tbl
      ∧ dispatched_records event = [])
    ∧ (event.is_directory = false → should_ignore event.src_path = false →
      dispatched_records event = [event.src_path]
      ∧ handle_modified event tbl now = add_change tbl event.src_path now
      ∧ handle_created event tbl now = add_change tbl event.src_path now) := by
  constructor
  · intro h
    have hc : (event.is_directory || should_ignore event.src_path) = true := by
      rcases h with h | h <;> simp [h]
    simp [handle_modified, handle_created, dispatched_records, hc]
  · intro h1 h2
    simp [handle_modified, handle_created, dispatched_records, h1, h2]

/-! ### The approval prompt (`get_user_approval`)

The prompt loop reads responses until one, stripped of surrounding
whitespace and lowercased, is a valid yes/no answer. The unbounded loop is
modelled over the (finite) sequence of responses the user supplies: `none`
means the loop is still re-prompting when the sequence runs out. -/

/-- Model of `str.lower()` (ASCII). -/
def lowerStr (s : String) : String := String.mk (s.data.map Char.toLower)

/-- Model of `str.strip()`: drop leading and trailing whitespace. -/
def stripStr (s : String) : String :=
  String.mk
    (((s.data.dropWhile Char.isWhitespace).reverse.dropWhile
      Char.isWhitespace).reverse)

/-- The normalization `response.strip().lower()` applied to each prompt answer. -/
def normalize_response (s : String) : String := lowerStr (stripStr s)

/-- One iteration of the prompt loop: `some true` on `y`/`yes`, `some false`
on `n`/`no`, `none` (print and re-prompt) otherwise. -/
def parse_response (response : String) : Option Bool :=
  if normalize_response response = "y" ∨ normalize_response response = "yes" then
    some true
  else if normalize_response response = "n" ∨ normalize_response response = "no" then
    some false
  else none

/-- Model of `get_user_approval`, run against a supplied sequence of responses. -/
def get_user_approval : List String → Option Bool
  | [] => none
  | r :: rs =>
    match parse_response r with
    | some b => some b
    | none => get_user_approval rs

theorem get_user_approval_cons (r : String) (rs : List String) :
    get_user_approval (r :: rs) =
      match parse_response r with
      | some b => some b
      | none => get_user_approval rs := rfl

/-- Invalid responses are skipped: the loop re-prompts through them. -/
theorem get_user_approval_skip (pre : List String)
    (h : ∀ s ∈ pre, parse_response s = none) (l : List String) :
    get_user_approval (pre ++ l) = get_user_approval l := by
  induction pre with
  | nil => simp
  | cons a as ih =>
    rw [List.cons_append, get_user_approval_cons, h a (List.mem_cons_self a as)]
    exact ih (fun s hs => h s (List.mem_cons_of_mem a hs))

/-! ### The polling loop and the analysis/fix flow -/

/-- One iteration of `monitor_loop`: drain the settled paths, keep only the
paths that still exist on disk, and hand that batch to `analyze_changes`
only when it is non-empty (`none` = analysis skipped this cycle). -/
def monitor_cycle (tbl : PendingTable) (now : ℚ) (existsOnDisk : String → Bool) :
    Option (List String) × PendingTable :=
  (if (get_ready_changes tbl now).1.isEmpty then none
   else if ((get_ready_changes tbl now).1.filter existsOnDisk).isEmpty then none
   else some ((get_ready_changes tbl now).1.filter existsOnDisk),
   (get_ready_changes tbl now).2)

/-- The keyword gate of `analyze_changes`: fixes are offered iff the
lowercased result text contains one of these substrings. -/
def FIX_KEYWORDS : List String := ["issue", "error", "bug", "fix", "problem", "should"]

/-- Char-list substring test, Python's `sub in s`. -/
def hasSubstr (sub : List Char) : List Char → Bool
  | [] => sub.isEmpty
  | c :: cs => startsWithList sub (c :: cs) || hasSubstr sub cs

/-- Python's `sub in s` on strings. -/
def str_contains (s sub : String) : Bool := hasSubstr sub.data s.data

/-- Model of `any(keyword in result_text.lower() for keyword in [...])`. -/
def needs_fixes (result_text : String) : Bool :=
  FIX_KEYWORDS.any (fun keyword => str_contains (lowerStr result_text) keyword)

/-- How a call to `analyze_changes` ends. Exceptions of the two external
`query` streams are caught inside the function (`analysisFailed`,
`fixApplyFailed`); every constructor is a normal return. -/
inductive AnalyzeOutcome where
  | analysisFailed : AnalyzeOutcome
  | noIssues : AnalyzeOutcome
  | fixesDeclined : AnalyzeOutcome
  | fixesApplied : AnalyzeOutcome
  | fixApplyFailed : AnalyzeOutcome
deriving DecidableEq

/-- Model of `apply_fixes`: the edit-capable `query` stream either raises (caught:
print and return) or completes. -/
def apply_fixes_model (fixQuery : Except String Unit) : AnalyzeOutcome :=
  match fixQuery with
  | Except.error _ => AnalyzeOutcome.fixApplyFailed
  | Except.ok _ => AnalyzeOutcome.fixesApplied

/-- Model of `analyze_changes`: the read-only `query` stream either raises (caught at
the call boundary: print and return) or yields the accumulated result text;
the keyword gate then decides whether to prompt, and on approval
`apply_fixes` runs. -/
def analyze_changes_model (queryResult : Except String String) (approved : Bool)
    (fixQuery : Except String Unit) : AnalyzeOutcome :=
  match queryResult with
  | Except.error _ => AnalyzeOutcome.analysisFailed
  | Except.ok result_text =>
    if needs_fixes result_text then
      if approved then apply_fixes_model fixQuery
      else AnalyzeOutcome.fixesDeclined
    else AnalyzeOutcome.noIssues

/-- Whether an outcome passed through the user approval prompt. -/
def prompt_issued : AnalyzeOutcome → Bool
  | AnalyzeOutcome.fixesDeclined => true
  | AnalyzeOutcome.fixesApplied => true
  | AnalyzeOutcome.fixApplyFailed => true
  | _ => false

/-- A full poll iteration: drain, filter to existing files, and if a batch
remains run `analyze_changes` on it; the loop then continues from the
drained table whatever the analysis outcome was. -/
def monitor_cycle_full (tbl : PendingTable) (now : ℚ)
    (existsOnDisk : String → Bool) (queryResult : Except String String)
    (approved : Bool) (fixQuery : Except String Unit) :
    Option AnalyzeOutcome × PendingTable :=
  match monitor_cycle tbl now existsOnDisk with
  | (none, tbl2) => (none, tbl2)
  | (some _, tbl2) =>
    (some (analyze_changes_model queryResult approved fixQuery), tbl2)

theorem hasSubstr_iff (sub : List Char) :
    ∀ t : List Char, hasSubstr sub t = true ↔ ∃ l r, t = l ++ sub ++ r := by
  intro t
  induction t with
  | nil =>
    simp only [hasSubstr, List.isEmpty_iff]
    constructor
    · rintro rfl
      exact ⟨[], [], rfl⟩
    · rintro ⟨l, r, hr⟩
      rcases List.append_eq_nil.mp hr.symm with ⟨h1, h2⟩
      rcases List.append_eq_nil.mp h1 with ⟨_, h3⟩
      exact h3
  | cons c cs ih =>
    simp only [hasSubstr, Bool.or_eq_true, startsWithList_iff, ih]
    constructor
    · rintro (⟨r, hr⟩ | ⟨l, r, hr⟩)
      · exact ⟨[], r, by simpa using hr⟩
      · exact ⟨c :: l, r, by simp [hr]⟩
    · rintro ⟨l, r, hr⟩
      cases l with
      | nil => exact Or.inl ⟨r, by simpa using hr⟩
      | cons x xs =>
        simp only [List.cons_append] at hr
        rcases List.cons_eq_cons.mp hr with ⟨rfl, h2⟩
        exact Or.inr ⟨xs, r, h2⟩

/-- The keyword gate, characterised: it fires exactly when some keyword is a
contiguous substring of the lowercased result text. -/
theorem needs_fixes_iff (t : String) :
    needs_fixes t = true ↔
      ∃ k ∈ FIX_KEYWORDS, ∃ l r, (lowerStr t).data = l ++ k.data ++ r := by
  unfold needs_fixes
  rw [List.any_eq_true]
  constructor
  · rintro ⟨k, hk, hc⟩
    exact ⟨k, hk, (hasSubstr_iff k.data (lowerStr t).data).mp hc⟩
  · rintro ⟨k, hk, hc⟩
    exact ⟨k, hk, (hasSubstr_iff k.data (lowerStr t).data).mpr hc⟩

/-- On a successful query, the approval prompt is issued exactly when the
keyword gate fires. -/
theorem prompt_issued_eq (t : String) (approved : Bool)
    (fixQuery : Except String Unit) :
    prompt_issued (analyze_changes_model (Except.ok t) approved fixQuery)
      = needs_fixes t := by
  unfold analyze_changes_model
  cases hf : needs_fixes t with
  | false => simp [hf, prompt_issued]
  | true =>
    cases approved with
    | false => simp [hf, prompt_issued]
    | true =>
      cases fixQuery with
      | error e => simp [hf, apply_fixes_model, prompt_issued]
      | ok u => simp [hf, apply_fixes_model, prompt_issued]

/-! ### Claim theorems: polling loop, prompt, analysis flow -/

/-- C7. In a polling cycle, the batch handed to the analysis workflow is
exactly the drained paths that still exist on disk — vanished paths are
silently excluded — and when no drained path exists the analysis call is
skipped for the cycle. -/
theorem vanished_files (tbl : PendingTable) (now : ℚ)
    (existsOnDisk : String → Bool) :
    (∀ batch, (monitor_cycle tbl now existsOnDisk).1 = some batch →
      batch = (get_ready_changes tbl now).1.filter existsOnDisk
      ∧ ∀ p ∈ batch, existsOnDisk p = true)
    ∧ ((∀ p ∈ (get_ready_changes tbl now).1, existsOnDisk p = false) →
      (monitor_cycle tbl now existsOnDisk).1 = none) := by
  constructor
  · intro batch h
    simp only [monitor_cycle] at h
    by_cases h1 : (get_ready_changes tbl now).1.isEmpty = true
    · rw [if_pos h1] at h
      simp at h
    · rw [if_neg h1] at h
      by_cases h2 :
          ((get_ready_changes tbl now).1.filter existsOnDisk).isEmpty = true
      · rw [if_pos h2] at h
        simp at h
      · rw [if_neg h2] at h
        have hb := (Option.some.inj h).symm
        refine ⟨hb, ?_⟩
        intro p hp
        rw [hb] at hp
        exact (List.mem_filter.mp hp).2
  · intro hall
    have hfil : (get_ready_changes tbl now).1.filter existsOnDisk = [] := by
      rw [List.filter_eq_nil_iff]
      intro p hp
      simp [hall p hp]
    simp only [monitor_cycle]
    by_cases h1 : (get_ready_changes tbl now).1.isEmpty = true
    · rw [if_pos h1]
    · rw [if_neg h1, if_pos (by simp [hfil])]

/-- C8. The approval prompt skips every invalid response and returns the
decision of the first valid one: `some true` exactly for a normalized `y` or
`yes`, `some false` exactly for `n` or `no`; on a sequence with no valid
response it never returns an answer. -/
theorem approval_prompt :
    (∀ (pre : List String) (r : String) (rs : List String),
      (∀ s ∈ pre, parse_response s = none) →
      ((normalize_response r = "y" ∨ normalize_response r = "yes") →
        get_user_approval (pre ++ r :: rs) = some true)
      ∧ ((normalize_response r = "n" ∨ normalize_response r = "no") →
        get_user_approval (pre ++ r :: rs) = some false))
    ∧ (∀ inputs : List String, (∀ s ∈ inputs, parse_response s = none) →
      get_user_approval inputs = none)
    ∧ (∀ (inputs : List String) (b : Bool), get_user_approval inputs = some b →
      ∃ pre r rs, inputs = pre ++ r :: rs
        ∧ (∀ s ∈ pre, parse_response s = none)
        ∧ parse_response r = some b)
    ∧ get_user_approval ["maybe", " YES "] = some true
    ∧ get_user_approval ["ok?", "N"] = some false := by
  refine ⟨?_, ?_, ?_, ?_, ?_⟩
  · intro pre r rs hpre
    rw [get_user_approval_skip pre hpre]
    constructor
    · intro hy
      have hr : parse_response r = some true := by
        unfold parse_response
        rw [if_pos hy]
      rw [get_user_approval_cons, hr]
    · intro hn
      have hr : parse_response r = some false := by
        unfold parse_response
        rcases hn with h | h <;> rw [h] <;> decide
      rw [get_user_approval_cons, hr]
  · intro inputs h
    induction inputs with
    | nil => rfl
    | cons a as ih =>
      rw [get_user_approval_cons, h a (List.mem_cons_self a as)]
      exact ih (fun s hs => h s (List.mem_cons_of_mem a hs))
  · intro inputs
    induction inputs with
    | nil =>
      intro b h
      simp [get_user_approval] at h
    | cons a as ih =>
      intro b h
      cases hp : parse_response a with
      | some c =>
        rw [get_user_approval_cons, hp] at h
        have hcb : c = b := Option.some.inj h
        exact ⟨[], a, as, rfl, by simp, by rw [hp, hcb]⟩
      | none =>
        rw [get_user_approval_cons, hp] at h
        rcases ih b h with ⟨pre, r, rs, heq, hall, hr⟩
        refine ⟨a :: pre, r, rs, by simp [heq], ?_, hr⟩
        intro s hs
        rcases List.mem_cons.mp hs with rfl | hs2
        · exact hp
        · exact hall s hs2
  · decide
  · decide

/-- C9. Failures of the external analysis call are caught at the boundary:
`analyze_changes` returns normally with `analysisFailed`; a failing fix
application is likewise caught; and the polling loop's successor table after
a cycle is the drained table whatever the analysis outcome, so no failure of
one batch terminates the loop. -/
theorem failure_containment (tbl : PendingTable) (now : ℚ)
    (existsOnDisk : String → Bool) (e e2 : String) (t : String)
    (approved : Bool) (fixQuery : Except String Unit) :
    analyze_changes_model (Except.error e) approved fixQuery
      = AnalyzeOutcome.analysisFailed
    ∧ analyze_changes_model (Except.ok t) true (Except.error e2)
      = (if needs_fixes t then AnalyzeOutcome.fixApplyFailed
        else AnalyzeOutcome.noIssues)
    ∧ (∀ queryResult : Except String String,
      (monitor_cycle_full tbl now existsOnDisk queryResult approved fixQuery).2
        = (get_ready_changes tbl now).2) := by
  refine ⟨rfl, ?_, ?_⟩
  · cases hf : needs_fixes t <;>
      simp [analyze_changes_model, hf, apply_fixes_model]
  · intro queryResult
    unfold monitor_cycle_full
    rcases hm : monitor_cycle tbl now existsOnDisk with ⟨o, tbl2⟩
    have h2 : tbl2 = (get_ready_changes tbl now).2 := by
      have h3 := congrArg Prod.snd hm
      exact h3.symm
    cases o <;> simp [h2]

/-- C10. After a successful analysis, the approval prompt (and so any fix
application) is issued exactly when the lowercased result text contains one
of the keywords `issue`, `error`, `bug`, `fix`, `problem`, `should`; the
all-clear text `"No issues found."` still triggers the prompt, and a text
containing no keyword never leads past `noIssues`. -/
theorem keyword_gate (t : String) (approved : Bool)
    (fixQuery : Except String Unit) :
    (prompt_issued (analyze_changes_model (Except.ok t) approved fixQuery)
        = true ↔
      ∃ k ∈ FIX_KEYWORDS, ∃ l r, (lowerStr t).data = l ++ k.data ++ r)
    ∧ prompt_issued
        (analyze_changes_model (Except.ok "No issues found.") approved fixQuery)
        = true
    ∧ ((∀ k ∈ FIX_KEYWORDS, ¬ ∃ l r, (lowerStr t).data = l ++ k.data ++ r) →
      analyze_changes_model (Except.ok t) approved fixQuery
        = AnalyzeOutcome.noIssues) := by
  refine ⟨?_, ?_, ?_⟩
  · rw [prompt_issued_eq, needs_fixes_iff]
  · rw [prompt_issued_eq]
    decide
  · intro hall
    have hf : needs_fixes t = false := by
      cases hx : needs_fixes t with
      | false => rfl
      | true =>
        rcases (needs_fixes_iff t).mp hx with ⟨k, hk, hc⟩
        exact absurd hc (hall k hk)
    simp [analyze_changes_model, hf]

end AutoClaude
